import Mathlib

/-!
Verification of the spark-agent core: Task Lifecycle Manager
(src/lib/tasks/lifecycle.ts), Capability Registry/Matcher
(src/lib/subagents/registry.ts), Delegation Engine
(src/lib/subagents/orchestrator.ts), the Spark executor backend
(src/lib/subagents/spark-agent.ts) and the dependency-ordered plan
executor (PlannerAdapter).

JavaScript values that the code stores opaquely (`unknown`) are modelled
by the inductive `Value`; `Record<string, unknown>` objects are modelled
as insertion-ordered association lists; `Map` is modelled as an
insertion-ordered association list with `Map.set` replace-in-place
semantics; `new Date()` reads are modelled by a monotonically increasing
clock counter in the store; `crypto.randomUUID()` is modelled by a fresh
counter (`nextId`), which preserves exactly the property the code relies
on: freshness of ids.
-/

namespace Spark

/-- Model of a JavaScript `unknown` value as far as this core inspects it. -/
inductive Value where
  | vnull : Value
  | vbool : Bool → Value
  | vnum : Int → Value
  | vstr : String → Value
  | vobj : List (String × Value) → Value

/-- JavaScript truthiness for the modelled values (`undefined`/`null`,
`false`, `0` and `""` are falsy, objects are truthy). -/
def Value.truthy : Value → Bool
  | .vnull => false
  | .vbool b => b
  | .vnum n => n != 0
  | .vstr s => s != ""
  | .vobj _ => true

/-- Field access `v.k` on a modelled value: `undefined` unless `v` is an
object carrying the key. -/
def Value.field (v : Value) (k : String) : Option Value :=
  match v with
  | .vobj l => (l.find? (fun p => p.1 == k)).map (·.2)
  | _ => none

/-- `status` of a task: `'pending' | 'running' | 'completed' | 'failed'`
(used throughout src/lib/tasks/lifecycle.ts). -/
inductive TaskStatus where
  | pending | running | completed | failed
  deriving Repr, DecidableEq

/-- The two terminal statuses (spec §4.1). -/
def TaskStatus.isTerminal : TaskStatus → Bool
  | .completed => true
  | .failed => true
  | _ => false

/-- The five lifecycle event kinds emitted by the TaskManager. -/
inductive EventType where
  | created | started | updated | finished | errored
  deriving Repr, DecidableEq

/-- A task record, as built and mutated by `TaskManager`
(src/lib/tasks/lifecycle.ts); ids are modelled as `Nat`. -/
structure Task where
  id : Nat
  name : String
  description : String
  kind : String
  parentId : Option Nat := none
  metadata : List (String × Value) := []
  status : TaskStatus
  result : Option Value := none
  errMsg : Option String := none
  createdAt : Nat
  startedAt : Option Nat := none
  completedAt : Option Nat := none

/-- The caller-supplied part of `create`'s argument
(`Omit<Task, 'id' | 'status' | 'createdAt'>`). -/
structure TaskSpec where
  name : String := ""
  description : String := ""
  kind : String := ""
  parentId : Option Nat := none
  metadata : List (String × Value) := []

/-- A lifecycle event `{ type, task, error? }`. -/
structure TaskEvent where
  type : EventType
  task : Task
  errMsg : Option String := none

/-- State of a `TaskManager`: the `tasks` map in insertion order, plus the
fresh-id counter and the clock that models `new Date()` reads. -/
structure TaskStore where
  tasks : List (Nat × Task) := []
  nextId : Nat := 0
  clock : Nat := 0

/-- `Map.get` on the tasks map (keys are unique): value of the first —
only — entry with the key. -/
def TaskStore.getTask : List (Nat × Task) → Nat → Option Task
  | [], _ => none
  | p :: rest, id => if p.1 = id then some p.2 else TaskStore.getTask rest id

/-- `Map.set`: replaces in place when the key exists, appends otherwise. -/
def TaskStore.setTask : List (Nat × Task) → Nat → Task → List (Nat × Task)
  | [], id, t => [(id, t)]
  | p :: rest, id, t =>
    if p.1 = id then (id, t) :: rest else p :: TaskStore.setTask rest id t

/-- `TaskManager.create`: allocates a fresh id, sets `status: 'pending'`
and `createdAt: new Date()`, stores the task and emits `created`. -/
def TaskStore.create (s : TaskStore) (spec : TaskSpec) :
    Task × TaskStore × List TaskEvent :=
  let t : Task :=
    { id := s.nextId
      name := spec.name
      description := spec.description
      kind := spec.kind
      parentId := spec.parentId
      metadata := spec.metadata
      status := .pending
      createdAt := s.clock }
  (t,
   { tasks := TaskStore.setTask s.tasks t.id t
     nextId := s.nextId + 1
     clock := s.clock + 1 },
   [{ type := .created, task := t }])

/-- `TaskManager.start`: no-op when the id is unknown; otherwise sets
`status: 'running'`, `startedAt: new Date()` and emits `started`. -/
def TaskStore.start (s : TaskStore) (id : Nat) :
    Option Task × TaskStore × List TaskEvent :=
  match TaskStore.getTask s.tasks id with
  | none => (none, s, [])
  | some t =>
    let t' : Task := { t with status := .running, startedAt := some s.clock }
    (some t',
     { s with
       tasks := TaskStore.setTask s.tasks id t'
       clock := s.clock + 1 },
     [{ type := .started, task := t' }])

/-- A `Partial<Task>` patch, shallow-merged by `update` via object spread. -/
structure TaskPatch where
  name : Option String := none
  description : Option String := none
  kind : Option String := none
  parentId : Option (Option Nat) := none
  metadata : Option (List (String × Value)) := none
  status : Option TaskStatus := none
  result : Option (Option Value) := none
  errMsg : Option (Option String) := none
  startedAt : Option (Option Nat) := none
  completedAt : Option (Option Nat) := none

/-- `{ ...task, ...progress }`: fields present in the patch override. -/
def TaskPatch.apply (p : TaskPatch) (t : Task) : Task :=
  { id := t.id
    name := p.name.getD t.name
    description := p.description.getD t.description
    kind := p.kind.getD t.kind
    parentId := p.parentId.getD t.parentId
    metadata := p.metadata.getD t.metadata
    status := p.status.getD t.status
    result := p.result.getD t.result
    errMsg := p.errMsg.getD t.errMsg
    createdAt := t.createdAt
    startedAt := p.startedAt.getD t.startedAt
    completedAt := p.completedAt.getD t.completedAt }

/-- `TaskManager.update`: no-op when the id is unknown; otherwise
shallow-merges the patch and emits `updated`. -/
def TaskStore.update (s : TaskStore) (id : Nat) (p : TaskPatch) :
    Option Task × TaskStore × List TaskEvent :=
  match TaskStore.getTask s.tasks id with
  | none => (none, s, [])
  | some t =>
    let t' := TaskPatch.apply p t
    (some t',
     { s with tasks := TaskStore.setTask s.tasks id t' },
     [{ type := .updated, task := t' }])

/-- `TaskManager.finish`: no-op when the id is unknown; otherwise sets
`status: 'completed'`, `completedAt: new Date()`, stores `result` and
emits `finished`. -/
def TaskStore.finish (s : TaskStore) (id : Nat) (result : Option Value) :
    Option Task × TaskStore × List TaskEvent :=
  match TaskStore.getTask s.tasks id with
  | none => (none, s, [])
  | some t =>
    let t' : Task :=
      { t with
        status := .completed
        completedAt := some s.clock
        result := result }
    (some t',
     { s with
       tasks := TaskStore.setTask s.tasks id t'
       clock := s.clock + 1 },
     [{ type := .finished, task := t' }])

/-- `TaskManager.error`: no-op when the id is unknown; otherwise sets
`status: 'failed'`, `completedAt: new Date()`, stores `error` and emits
`error`. -/
def TaskStore.error (s : TaskStore) (id : Nat) (msg : String) :
    Option Task × TaskStore × List TaskEvent :=
  match TaskStore.getTask s.tasks id with
  | none => (none, s, [])
  | some t =>
    let t' : Task :=
      { t with
        status := .failed
        completedAt := some s.clock
        errMsg := some msg }
    (some t',
     { s with
       tasks := TaskStore.setTask s.tasks id t'
       clock := s.clock + 1 },
     [{ type := .errored, task := t', errMsg := some msg }])

/-- An event handler, as registered through `onEvent`; a thrown exception
is modelled by `Except.error` with the thrown message. -/
abbrev TaskHandler := TaskEvent → Except String Unit

/-- `emit` = `this.eventHandlers.forEach((handler) => handler(event))`:
handlers run in subscription order; a throw aborts the loop and
propagates. -/
def runHandlers (hs : List TaskHandler) (e : TaskEvent) : Except String Unit :=
  match hs with
  | [] => .ok ()
  | h :: rest =>
    match h e with
    | .ok _ => runHandlers rest e
    | .error msg => .error msg

/-- Number of handlers actually invoked by `emit`: each handler in order
until (and including) the first one that throws. -/
def invokedCount (hs : List TaskHandler) (e : TaskEvent) : Nat :=
  match hs with
  | [] => 0
  | h :: rest =>
    match h e with
    | .ok _ => 1 + invokedCount rest e
    | .error _ => 1

/-- `SubagentCapability` (src/types/subagent.ts). -/
inductive Cap where
  | code | testing | aesthetics | presentation | research | multimodal | mcp
  deriving Repr, DecidableEq

/-- `SubagentStatus` (src/types/subagent.ts). -/
inductive AgentStatus where
  | available | busy | offline
  deriving Repr, DecidableEq

/-- A registered executor descriptor (`Subagent`, src/types/subagent.ts). -/
structure Subagent where
  id : String
  name : String := ""
  description : String := ""
  capabilities : List Cap
  status : AgentStatus := .available

/-- The registry's `Map` of agents, modelled as its value list in
insertion order (ids unique; `register` on an existing id replaces in
place, which keeps this list's order — `Map.set` semantics). -/
abbrev Registry := List Subagent

/-- The score `findBestMatch` gives one agent:
`requiredCapabilities.filter((cap) => agent.capabilities.includes(cap)).length`. -/
def matchScore (required : List Cap) (agent : Subagent) : Nat :=
  (required.filter (fun cap => agent.capabilities.contains cap)).length

/-- The scan loop of `SubagentRegistry.findBestMatch`: keeps the first
strictly greater score. -/
def bestLoop (required : List Cap) :
    List Subagent → Option Subagent → Nat → Option Subagent
  | [], best, _ => best
  | agent :: rest, best, bestScore =>
    if bestScore < matchScore required agent then
      bestLoop required rest (some agent) (matchScore required agent)
    else
      bestLoop required rest best bestScore

/-- `SubagentRegistry.findBestMatch` (src/lib/subagents/registry.ts,
lines 44-60): starts with no best match and best score 0. -/
def findBestMatch (agents : Registry) (required : List Cap) :
    Option Subagent :=
  bestLoop required agents none 0

/-- The greatest score any registered agent reaches (0 for an empty
registry); used to characterise `findBestMatch`. -/
def maxScore (required : List Cap) (agents : Registry) : Nat :=
  agents.foldr (fun a m => max (matchScore required a) m) 0

/-- The capability tag strings as they appear in the source. -/
def capName : Cap → String
  | .code => "code"
  | .testing => "testing"
  | .aesthetics => "aesthetics"
  | .presentation => "presentation"
  | .research => "research"
  | .multimodal => "multimodal"
  | .mcp => "mcp"

/-- A `Record<string, unknown>` context object, in key insertion order. -/
abbrev Ctx := List (String × Value)

/-- Property lookup on a context object. -/
def ctxLookup (c : Ctx) (k : String) : Option Value :=
  (c.find? (fun p => p.1 == k)).map (·.2)

/-- Object spread `{ ...a, ...b }`: keys of `a` in order with values
overridden by `b` where present, then the keys of `b` new to `a`. -/
def ctxMerge (a b : Ctx) : Ctx :=
  (a.map fun p =>
    match ctxLookup b p.1 with
    | some v => (p.1, v)
    | none => p) ++
  b.filter (fun p => !(a.any (fun q => q.1 == p.1)))

/-- Soft constraints on a unit of work (`SubagentTask.constraints`). -/
structure WorkConstraints where
  maxDuration : Option Int := none
  maxTokens : Option Int := none
  outputFormat : Option String := none

/-- A `SubagentTask` (src/types/subagent.ts): the unit of work handed to
the Delegation Engine. -/
structure Work where
  id : Option String := none
  name : String := ""
  prompt : String := ""
  capabilities : List Cap := []
  context : Ctx := []
  constraints : WorkConstraints := {}

/-- A `SubagentResult` (src/types/subagent.ts). The source uses the
empty string for `taskId` when no task was created; that sentinel is
modelled as `none`. -/
structure WorkResult where
  success : Bool
  taskId : Option Nat := none
  output : Option Value := none
  artifacts : Option Value := none
  errMsg : Option String := none
  metadata : Option Value := none

/-- `SparkAgentClient.execute` (src/lib/subagents/spark-agent.ts,
lines 54-112). The external `fetch` of `/api/execute` and the parsing of
its body are a collaborator call, modelled by `outcome`: `.ok v` is the
parsed response JSON; `.error msg` is the thrown error's message (network
failure, non-ok status, or malformed body). -/
def sparkExecute (s : TaskStore) (outcome : Except String Value) (w : Work) :
    TaskStore × WorkResult :=
  let created := TaskStore.create s
    { name := "Spark: " ++ w.name
      description := w.prompt
      kind := "subagent"
      metadata := [("subagentId", .vstr "spark-agent"),
                   ("capabilities", .vobj ((w.capabilities.map capName).map
                     (fun c => (c, Value.vstr c))))] }
  let t := created.1
  let s1 := created.2.1
  let s2 := (TaskStore.start s1 t.id).2.1
  match outcome with
  | .ok v =>
    let s3 := (TaskStore.finish s2 t.id (some v)).2.1
    (s3,
     { success := true
       taskId := some t.id
       output := v.field "output"
       artifacts := v.field "artifacts"
       metadata := some (.vobj
         [("duration", (v.field "duration").getD .vnull),
          ("tokensUsed", (v.field "tokensUsed").getD .vnull)]) })
  | .error msg =>
    let s3 := (TaskStore.error s2 t.id msg).2.1
    (s3, { success := false, taskId := some t.id, errMsg := some msg })

/-- `SubagentOrchestrator.delegate` (src/lib/subagents/orchestrator.ts,
lines 23-42): resolves an agent through `findBestMatch`; no match yields
a failure result with no task; the `spark-agent` id routes to
`sparkExecute`; any other agent hits the unimplemented generic path. -/
def delegateOne (reg : Registry) (backend : Work → Except String Value)
    (s : TaskStore) (w : Work) : TaskStore × WorkResult :=
  match findBestMatch reg w.capabilities with
  | none =>
    (s, { success := false
          errMsg := some ("No subagent found with capabilities: " ++
            String.intercalate ", " (w.capabilities.map capName)) })
  | some agent =>
    if agent.id = "spark-agent" then sparkExecute s (backend w) w
    else
      (s, { success := false
            errMsg := some ("Subagent " ++ agent.id ++
              " execution not implemented") })

/-- `SubagentOrchestrator.delegateParallel` (lines 47-49):
`Promise.all(tasks.map((task) => this.delegate(task)))`. In the
single-writer runtime each delegation's store mutations run in input
order; the settled results are collected in input order, one per input,
whether the item succeeded or failed. -/
def delegateParallel (reg : Registry) (backend : Work → Except String Value)
    (s : TaskStore) : List Work → TaskStore × List WorkResult
  | [] => (s, [])
  | w :: rest =>
    let first := delegateOne reg backend s w
    let restRun := delegateParallel reg backend first.1 rest
    (restRun.1, first.2 :: restRun.2)

/-- A work item with the accumulated context merged into its own:
`{ ...task, context: { ...task.context, ...accumulatedContext } }`. -/
def enrichWith (w : Work) (c : Ctx) : Work :=
  { w with context := ctxMerge w.context c }

/-- What attempt `idx` contributes to the accumulated context:
`result_idx` bound to the output when `result.success && result.output`
holds (`result.output` is a JavaScript truthiness test), nothing
otherwise. -/
def resultEntry (r : WorkResult) (idx : Nat) : Ctx :=
  match r.output with
  | some v =>
    if r.success && v.truthy then [("result_" ++ toString idx, v)] else []
  | none => []

/-- The loop body of `SubagentOrchestrator.delegateSequential`
(lines 54-80), returning each enriched task next to its result. `idx` is
`results.length - 1` at push time, i.e. the absolute attempt index; the
accumulated context gains `result_idx` only for a successful result with
a truthy `output` (appending a fresh key is exactly the source's object
spread `{ ...accumulatedContext, [key]: output }`). -/
def seqLoop (reg : Registry) (backend : Work → Except String Value)
    (propagate : Bool) :
    TaskStore → List Work → Nat → Ctx → TaskStore × List (Work × WorkResult)
  | s, [], _, _ => (s, [])
  | s, w :: rest, idx, accum =>
    let enriched :=
      if propagate then { w with context := ctxMerge w.context accum } else w
    let one := delegateOne reg backend s enriched
    let accum' := accum ++ resultEntry one.2 idx
    let restRun := seqLoop reg backend propagate one.1 rest (idx + 1) accum'
    (restRun.1, (enriched, one.2) :: restRun.2)

/-- `SubagentOrchestrator.delegateSequential`: the results array, in
attempt order. -/
def delegateSequential (reg : Registry) (backend : Work → Except String Value)
    (s : TaskStore) (works : List Work) (propagate : Bool) :
    TaskStore × List WorkResult :=
  let run := seqLoop reg backend propagate s works 0 []
  (run.1, run.2.map (·.2))

/-- The accumulated-context object built from a run of results starting
at attempt index `idx`: one `result_i` key per successful truthy-output
result, keyed by its absolute attempt index. -/
def accumOf : List WorkResult → Nat → Ctx
  | [], _ => []
  | r :: rest, idx => resultEntry r idx ++ accumOf rest (idx + 1)

/-- Substring test on character lists (`String.prototype.includes`). -/
def hasInfix (pat : List Char) : List Char → Bool
  | [] => pat.isEmpty
  | c :: rest => pat.isPrefixOf (c :: rest) || hasInfix pat rest

/-- `text.includes(pat)`. -/
def strContains (text pat : String) : Bool :=
  hasInfix pat.data text.data

/-- `SubagentOrchestrator.inferCapabilities` (lines 112-144): an explicit
`capabilities` array in the action's parameters is returned verbatim;
otherwise case-insensitive keyword matching over name + description, with
`['code']` as the default when nothing matches. -/
def inferCapabilities (explicitCaps : Option (List Cap))
    (name description : String) : List Cap :=
  match explicitCaps with
  | some caps => caps
  | none =>
    let text := (name ++ " " ++ description).toLower
    let caps : List Cap :=
      (if strContains text "code" || strContains text "build" ||
          strContains text "develop" then [.code] else []) ++
      (if strContains text "test" || strContains text "verify"
          then [.testing] else []) ++
      (if strContains text "design" || strContains text "ui" ||
          strContains text "style" then [.aesthetics] else []) ++
      (if strContains text "research" || strContains text "search" ||
          strContains text "find" then [.research] else []) ++
      (if strContains text "presentation" || strContains text "slide" ||
          strContains text "ppt" then [.presentation] else []) ++
      (if strContains text "image" || strContains text "video" ||
          strContains text "audio" then [.multimodal] else [])
    if caps.length > 0 then caps else [.code]

/-- The keyword table of the spec (§4.3), tag by tag. -/
def keywordsFor : Cap → List String
  | .code => ["code", "build", "develop"]
  | .testing => ["test", "verify"]
  | .aesthetics => ["design", "ui", "style"]
  | .research => ["research", "search", "find"]
  | .presentation => ["presentation", "slide", "ppt"]
  | .multimodal => ["image", "video", "audio"]
  | .mcp => []

/-- The tags the table can produce, in the order the code pushes them. -/
def capTable : List Cap :=
  [.code, .testing, .aesthetics, .research, .presentation, .multimodal]

/-- Capability inference as the spec words it: every tag whose keyword
group matches the lowercased text. -/
def specInferred (text : String) : List Cap :=
  capTable.filter (fun c => (keywordsFor c).any (fun kw => strContains text kw))

/-- `ActionTarget.type` (src/types/plan.ts): `'mcp' | 'subagent'`. -/
inductive TargetType where
  | mcp | subagent
  deriving Repr, DecidableEq

/-- The string the discriminant carries in the source. -/
def TargetType.str : TargetType → String
  | .mcp => "mcp"
  | .subagent => "subagent"

/-- `ActionTarget` (src/types/plan.ts). -/
structure ActionTarget where
  type : TargetType
  serverId : Option String := none
  agentId : Option String := none

/-- `PlanAction` (src/types/plan.ts); `order` is optional. -/
structure PlanAction where
  id : String
  name : String := ""
  description : String := ""
  target : ActionTarget
  parameters : Ctx := []
  order : Option Int := none
  dependsOn : Option (List String) := none

/-- `MultiActionPlan` (src/types/plan.ts). -/
structure MultiActionPlan where
  id : String
  name : String := ""
  description : String := ""
  actions : List PlanAction

/-- `MCPResponse` (src/types/mcp.ts), the outcome of
`mcpClient.executeAction` — an external collaborator call, supplied to
the model as an oracle per action. That client catches its own network
errors and returns `success: false`, so the call never throws. -/
structure MCPResponse where
  success : Bool
  data : Option Value := none
  errMsg : Option String := none

/-- The `order` key an action lands under: `action.order ?? 0`. -/
def orderOf (a : PlanAction) : Int :=
  a.order.getD 0

/-- One step of the grouping loop in `PlannerAdapter.groupByOrder`
(src, part_004 lines 343-356): `groups.get(order) || []`, push, `Map.set`
(replace the — unique — entry with the key in place, else append). -/
def addToGroups : List (Int × List PlanAction) → PlanAction →
    List (Int × List PlanAction)
  | [], a => [(orderOf a, [a])]
  | g :: rest, a =>
    if g.1 = orderOf a then (g.1, g.2 ++ [a]) :: rest
    else g :: addToGroups rest a

/-- `Map.get` on the keyed buckets. -/
def lookupG : List (Int × List PlanAction) → Int → Option (List PlanAction)
  | [], _ => none
  | g :: rest, k => if g.1 = k then some g.2 else lookupG rest k

/-- The `Map<number, PlanAction[]>` built by `groupByOrder`, while it is
still keyed and in key insertion order. -/
def groupsOf (actions : List PlanAction) : List (Int × List PlanAction) :=
  actions.foldl addToGroups []

/-- Comparison of keyed buckets by `order` key, as in
`.sort(([a], [b]) => a - b)`. -/
def byOrderKey (p q : Int × List PlanAction) : Prop :=
  p.1 ≤ q.1

instance : DecidableRel byOrderKey :=
  fun p q => inferInstanceAs (Decidable (p.1 ≤ q.1))

instance : IsTotal (Int × List PlanAction) byOrderKey :=
  ⟨fun p q => Int.le_total p.1 q.1⟩

instance : IsTrans (Int × List PlanAction) byOrderKey :=
  ⟨fun _ _ _ h1 h2 => le_trans h1 h2⟩

/-- The keyed buckets sorted ascending by `order`. The source sorts the
unique-keyed entry array with the numeric comparator; any correct
ascending sort of the distinct keys is the same list. -/
def sortedGroups (actions : List PlanAction) : List (Int × List PlanAction) :=
  List.insertionSort byOrderKey (groupsOf actions)

/-- `PlannerAdapter.groupByOrder`: buckets in ascending `order`, keys
dropped. -/
def groupByOrder (actions : List PlanAction) : List (List PlanAction) :=
  (sortedGroups actions).map (·.2)

/-- `PlannerAdapter.executeAction` (part_004 lines 290-326): creates a
child task linked via `parentId`, starts it, then dispatches on
`target.type`. An `mcp` action consults the tool-call backend oracle and
throws when it reports failure (`new Error(result.error)`, whose message
is `''` when `result.error` is undefined); the thrown message is returned
as `some`. A `subagent` action is finished at once with the placeholder
`{ status: 'subagent_pending' }` — `executeSubagentAction` (lines
331-338) is a TODO stub that never consults the Delegation Engine and
never fails. -/
def executeAction (env : PlanAction → MCPResponse) (s : TaskStore)
    (a : PlanAction) (parentId : Nat) : TaskStore × Option String :=
  let created := TaskStore.create s
    { name := a.name
      description := a.description
      kind := a.target.type.str
      parentId := some parentId
      metadata := [("actionId", .vstr a.id)] }
  let t := created.1
  let s2 := (TaskStore.start created.2.1 t.id).2.1
  match a.target.type with
  | .mcp =>
    let r := env a
    if r.success then
      ((TaskStore.finish s2 t.id r.data).2.1, none)
    else
      let msg := r.errMsg.getD ""
      ((TaskStore.error s2 t.id msg).2.1, some msg)
  | .subagent =>
    ((TaskStore.finish s2 t.id
        (some (.vobj [("status", .vstr "subagent_pending")]))).2.1, none)

/-- One bucket: `Promise.all(group.map((action) => executeAction(...)))`.
Every action of the bucket is dispatched (a sibling's failure does not
cancel the others); the wait fails when any action failed, surfacing one
triggering error (modelled as the first in bucket order). -/
def runBucket (env : PlanAction → MCPResponse) (parentId : Nat) :
    TaskStore → List PlanAction → TaskStore × Option String
  | s, [] => (s, none)
  | s, a :: rest =>
    let one := executeAction env s a parentId
    let restRun := runBucket env parentId one.1 rest
    (restRun.1,
     match one.2 with
     | some m => some m
     | none => restRun.2)

/-- The bucket loop of `PlannerAdapter.execute`: buckets in list order;
a failing bucket's error aborts the loop, so no later bucket is entered. -/
def runBuckets (env : PlanAction → MCPResponse) (parentId : Nat) :
    TaskStore → List (List PlanAction) → TaskStore × Option String
  | s, [] => (s, none)
  | s, g :: rest =>
    let one := runBucket env parentId s g
    match one.2 with
    | some m => (one.1, some m)
    | none => runBuckets env parentId one.1 rest

/-- `taskManager.create(...)` immediately followed by
`taskManager.start(<its id>)`, as both `PlannerAdapter.execute` and
`PlannerAdapter.executeAction` begin: the resulting store and the new
task's id. -/
def createStarted (s : TaskStore) (spec : TaskSpec) : TaskStore × Nat :=
  let created := TaskStore.create s spec
  ((TaskStore.start created.2.1 created.1.id).2.1, created.1.id)

/-- The `TaskSpec` the parent plan task is created from. -/
def planSpec (plan : MultiActionPlan) : TaskSpec :=
  { name := plan.name
    description := plan.description
    kind := "plan"
    metadata := [("planId", .vstr plan.id)] }

/-- `PlannerAdapter.execute` (part_004 lines 255-285): creates and starts
the parent plan task, runs the sorted buckets, then finishes the parent
with `{ status: 'completed' }` or marks it errored with the triggering
message and rethrows (the rethrown message is returned as `some`). -/
def planExecute (env : PlanAction → MCPResponse) (s : TaskStore)
    (plan : MultiActionPlan) : TaskStore × Option String :=
  let started := createStarted s (planSpec plan)
  let run := runBuckets env started.2 started.1 (groupByOrder plan.actions)
  match run.2 with
  | none =>
    ((TaskStore.finish run.1 started.2
        (some (.vobj [("status", .vstr "completed")]))).2.1, none)
  | some m => ((TaskStore.error run.1 started.2 m).2.1, some m)

/-- Whether an action fails under the backend oracle: only `mcp` actions
can fail (the subagent stub always finishes). -/
def actionFails (env : PlanAction → MCPResponse) (a : PlanAction) : Bool :=
  match a.target.type with
  | .mcp => !(env a).success
  | .subagent => false

/-- The buckets `execute` actually enters: every bucket up to and
including the first one containing a failing action. -/
def bucketsEntered (env : PlanAction → MCPResponse) :
    List (List PlanAction) → List (List PlanAction)
  | [] => []
  | g :: rest =>
    if g.any (actionFails env) then [g]
    else g :: bucketsEntered env rest

/-- A concrete delegated (`subagent`) plan action — the input on which
the dependency-ordered executor's dispatch diverges from the spec. -/
def subagentAction : PlanAction :=
  { id := "a-sub", name := "n", target := { type := .subagent } }

/-- A concrete `mcp` plan action that its backend reports as failed. -/
def failingMcpAction : PlanAction :=
  { id := "a-mcp", name := "m"
    target := { type := .mcp, serverId := some "srv" } }

/-- A concrete backend oracle for plan actions: fails `failingMcpAction`,
answers everything else with `{ ok: true }`. -/
def plannerEnv : PlanAction → MCPResponse := fun a =>
  if a.id = "a-mcp" then { success := false, errMsg := some "mcp down" }
  else { success := true, data := some (.vobj [("ok", .vbool true)]) }

/-- A concrete two-bucket plan: the order-0 bucket holds the failing
`mcp` action, the order-1 bucket holds the `subagent` action. -/
def twoBucketPlan : MultiActionPlan :=
  { id := "p", name := "plan", actions :=
      [{ failingMcpAction with order := some 0 },
       { subagentAction with order := some 1 }] }

/-- Well-formedness of a store: every key of the tasks map was allocated
by the fresh-id counter. This holds for every reachable store and is the
model-side counterpart of `crypto.randomUUID()` freshness. -/
def TaskStore.wf (s : TaskStore) : Prop :=
  ∀ p ∈ s.tasks, p.1 < s.nextId

/-! Concrete inputs used by counterexamples and witnesses. -/

/-- A throwing event handler. -/
def throwingHandler : TaskHandler := fun _ => .error "boom"

/-- A well-behaved event handler. -/
def okHandler : TaskHandler := fun _ => .ok ()

/-- A concrete task record for concrete events. -/
def sampleTask : Task :=
  { id := 0, name := "", description := "", kind := "mcp"
    status := .pending, createdAt := 0 }

/-- A concrete lifecycle event. -/
def sampleEvent : TaskEvent :=
  { type := .created, task := sampleTask }

/-- Store after `create` on the empty store: one pending task, id 0. -/
def storeAfterCreate : TaskStore :=
  (TaskStore.create {} { name := "t" }).2.1

/-- Then `finish(0)` without any `start`: pending straight to completed. -/
def storeAfterFinish : TaskStore :=
  (TaskStore.finish storeAfterCreate 0 none).2.1

/-- Then `start(0)` on the completed task: terminal back to running. -/
def storeAfterRestart : TaskStore :=
  (TaskStore.start storeAfterFinish 0).2.1

/-- The task record held under id 0 in `storeAfterFinish`. -/
def finishedTask : Task :=
  { id := 0, name := "t", description := "", kind := ""
    status := .completed, createdAt := 0, completedAt := some 1 }

/-- Whether a handler call returned normally (did not throw). -/
def exceptOk : Except String Unit → Bool
  | .ok _ => true
  | .error _ => false

/-- A descriptor with capability set `{code, testing}` (spec §8 example). -/
def smallDescriptor : Subagent :=
  { id := "a1", capabilities := [.code, .testing] }

/-- A descriptor with capability set `{code, testing, aesthetics}`. -/
def sparkDescriptor : Subagent :=
  { id := "a2", capabilities := [.code, .testing, .aesthetics] }

/-- The Spark agent's own descriptor (`getAgentConfig`). -/
def sparkAgentDescriptor : Subagent :=
  { id := "spark-agent"
    name := "Spark Agent"
    capabilities := [.code, .testing, .aesthetics, .presentation, .research,
                     .multimodal, .mcp] }

/-- A registry holding only the Spark agent. -/
def sparkOnlyReg : Registry := [sparkAgentDescriptor]

/-- A backend oracle that fails the work item named `w0` and answers
every other item with `{ output: 'x' }`. -/
def failFirstBackend : Work → Except String Value := fun w =>
  if w.name = "w0" then .error "fail0" else .ok (.vobj [("output", .vstr "x")])

/-- First work item (this one fails under `failFirstBackend`). -/
def work0 : Work := { name := "w0", capabilities := [.code] }

/-- Second work item (succeeds with output `'x'`). -/
def work1 : Work := { name := "w1", capabilities := [.code] }

/-- Third work item (observes the accumulated context). -/
def work2 : Work := { name := "w2", capabilities := [.code] }

/-- The trace of `delegateSequential` with context propagation over
`[work0, work1, work2]`: each enriched task next to its result. -/
def seqCexTrace : List (Work × WorkResult) :=
  (seqLoop sparkOnlyReg failFirstBackend true {} [work0, work1, work2] 0 []).2

/-- The fields of a result that do not depend on the task-id numbering:
success flag, output, error, artifacts and metadata. -/
def resultCore (r : WorkResult) :
    Bool × Option Value × Option String × Option Value × Option Value :=
  (r.success, r.output, r.errMsg, r.artifacts, r.metadata)

end Spark

/-! ## Theorems -/

namespace Spark

theorem getTask_setTask_self (ts : List (Nat × Task)) (id : Nat) (t' : Task) :
    TaskStore.getTask (TaskStore.setTask ts id t') id = some t' := by
  induction ts with
  | nil => simp [TaskStore.setTask, TaskStore.getTask]
  | cons hd tl ih =>
    by_cases h : hd.1 = id <;>
      simp [TaskStore.setTask, TaskStore.getTask, h, ih]

theorem getTask_setTask_ne (ts : List (Nat × Task)) (id k : Nat) (t' : Task)
    (hne : k ≠ id) :
    TaskStore.getTask (TaskStore.setTask ts id t') k =
      TaskStore.getTask ts k := by
  induction ts with
  | nil => simp [TaskStore.setTask, TaskStore.getTask, Ne.symm hne]
  | cons hd tl ih =>
    by_cases h : hd.1 = id
    · have hdk : hd.1 ≠ k := by omega
      simp [TaskStore.setTask, TaskStore.getTask, h, Ne.symm hne, hdk]
    · by_cases hdk : hd.1 = k <;>
        simp [TaskStore.setTask, TaskStore.getTask, h, hdk, hne, ih]

theorem setTask_length_present (ts : List (Nat × Task)) (id : Nat) (t' : Task)
    (h : (TaskStore.getTask ts id).isSome) :
    (TaskStore.setTask ts id t').length = ts.length := by
  induction ts with
  | nil => simp [TaskStore.getTask] at h
  | cons hd tl ih =>
    by_cases hk : hd.1 = id
    · simp [TaskStore.setTask, hk]
    · simp only [TaskStore.getTask, if_neg hk] at h
      simp [TaskStore.setTask, hk, ih h]

theorem setTask_length_new (ts : List (Nat × Task)) (id : Nat) (t' : Task)
    (h : TaskStore.getTask ts id = none) :
    (TaskStore.setTask ts id t').length = ts.length + 1 := by
  induction ts with
  | nil => simp [TaskStore.setTask]
  | cons hd tl ih =>
    by_cases hk : hd.1 = id
    · simp [TaskStore.getTask, hk] at h
    · simp only [TaskStore.getTask, if_neg hk] at h
      simp [TaskStore.setTask, hk, ih h]

theorem getTask_none_of_lt (ts : List (Nat × Task)) (n : Nat)
    (h : ∀ p ∈ ts, p.1 < n) : TaskStore.getTask ts n = none := by
  induction ts with
  | nil => simp [TaskStore.getTask]
  | cons hd tl ih =>
    have : hd.1 ≠ n := by
      have := h hd (by simp)
      omega
    simp only [TaskStore.getTask, if_neg this]
    exact ih (fun p hp => h p (by simp [hp]))

theorem getTask_fresh_none (s : TaskStore) (h : TaskStore.wf s) :
    TaskStore.getTask s.tasks s.nextId = none :=
  getTask_none_of_lt s.tasks s.nextId h

/-- C7: every Task Store mutator (`start`, `update`, `finish`, `error`)
called with an id not present in the store returns nothing, emits no
event and leaves the store completely unchanged; none of them raises
(each is a total function returning the untouched state). -/
theorem unknownId_mutators_noop (s : TaskStore) (id : Nat) (p : TaskPatch)
    (res : Option Value) (msg : String)
    (h : TaskStore.getTask s.tasks id = none) :
    TaskStore.start s id = (none, s, []) ∧
    TaskStore.update s id p = (none, s, []) ∧
    TaskStore.finish s id res = (none, s, []) ∧
    TaskStore.error s id msg = (none, s, []) := by
  unfold TaskStore.start TaskStore.update TaskStore.finish TaskStore.error
  simp [h]

/-- Witness for C7 at the empty store and id 5. -/
theorem unknownId_mutators_noop_w :
    TaskStore.start {} 5 = (none, {}, []) ∧
    TaskStore.update {} 5 {} = (none, {}, []) ∧
    TaskStore.finish {} 5 none = (none, {}, []) ∧
    TaskStore.error {} 5 "x" = (none, {}, []) :=
  unknownId_mutators_noop {} 5 {} none "x" rfl

/-- C1 counterexample: the Task Store does not enforce the §4.1 state
machine. On the concrete store holding one task (id 0), `finish` moves
the task from `pending` directly to the terminal `completed`, and a
subsequent `start` moves the terminal task back to `running` — so a task
does move from pending directly to a terminal state, and a terminal
task's fields do change. -/
theorem lifecycle_state_machine_cex :
    (TaskStore.getTask storeAfterCreate.tasks 0).map (·.status) =
      some .pending ∧
    (TaskStore.getTask storeAfterFinish.tasks 0).map (·.status) =
      some .completed ∧
    (TaskStore.getTask storeAfterRestart.tasks 0).map (·.status) =
      some .running :=
  ⟨rfl, rfl, rfl⟩

/-- C1 amended: the state machine of §4.1 is a calling discipline, not
enforced by the store — on any present id each mutator updates its
fields unconditionally, whatever the current status: `start` stores
status `running`, `finish` stores `completed`, `error` stores `failed`
and `update` applies its patch. -/
theorem mutators_unguarded (s : TaskStore) (id : Nat) (t : Task)
    (p : TaskPatch) (res : Option Value) (msg : String)
    (h : TaskStore.getTask s.tasks id = some t) :
    TaskStore.getTask (TaskStore.start s id).2.1.tasks id =
      some { t with status := .running, startedAt := some s.clock } ∧
    TaskStore.getTask (TaskStore.finish s id res).2.1.tasks id =
      some { t with
             status := .completed
             completedAt := some s.clock
             result := res } ∧
    TaskStore.getTask (TaskStore.error s id msg).2.1.tasks id =
      some { t with
             status := .failed
             completedAt := some s.clock
             errMsg := some msg } ∧
    TaskStore.getTask (TaskStore.update s id p).2.1.tasks id =
      some (TaskPatch.apply p t) := by
  unfold TaskStore.start TaskStore.update TaskStore.finish TaskStore.error
  simp [h, getTask_setTask_self]

/-- Witness for the amended C1 on the concrete store whose task 0 is
already terminal (`completed`): `start` still rewrites it to `running`. -/
theorem mutators_unguarded_w :
    TaskStore.getTask (TaskStore.start storeAfterFinish 0).2.1.tasks 0 =
      some { finishedTask with status := .running, startedAt := some 2 } ∧
    TaskStore.getTask (TaskStore.finish storeAfterFinish 0 none).2.1.tasks 0 =
      some { finishedTask with
             status := .completed
             completedAt := some 2
             result := none } ∧
    TaskStore.getTask (TaskStore.error storeAfterFinish 0 "m").2.1.tasks 0 =
      some { finishedTask with
             status := .failed
             completedAt := some 2
             errMsg := some "m" } ∧
    TaskStore.getTask (TaskStore.update storeAfterFinish 0 {}).2.1.tasks 0 =
      some (TaskPatch.apply {} finishedTask) :=
  mutators_unguarded storeAfterFinish 0 finishedTask {} none "m" rfl

/-- C3 counterexample: with two subscribed handlers where the first
throws, `emit` invokes only the first — the second handler is never
invoked and the exception propagates — so a throwing handler does
prevent delivery to the handlers subscribed after it. -/
theorem emit_throw_stops_delivery_cex :
    invokedCount [throwingHandler, okHandler] sampleEvent = 1 ∧
    ([throwingHandler, okHandler] : List TaskHandler).length = 2 ∧
    runHandlers [throwingHandler, okHandler] sampleEvent = .error "boom" :=
  ⟨rfl, rfl, rfl⟩

/-- C3 amended: `emit` delivers the event to the subscribed handlers in
order only up to and including the first handler that throws; handlers
after it are not invoked and the exception propagates to the mutating
caller. When no handler throws, every handler is invoked. -/
theorem emit_stops_at_first_throw (hs : List TaskHandler) (e : TaskEvent) :
    ((∀ h ∈ hs, exceptOk (h e) = true) →
      invokedCount hs e = hs.length ∧ runHandlers hs e = .ok ()) ∧
    (∀ i msg, (hs.get? i).map (fun h => h e) = some (.error msg) →
      (∀ j hj, j < i → hs.get? j = some hj → exceptOk (hj e) = true) →
      invokedCount hs e = i + 1 ∧ runHandlers hs e = .error msg) := by
  induction hs with
  | nil =>
    refine ⟨fun _ => by simp [invokedCount, runHandlers], ?_⟩
    intro i msg hget _
    simp at hget
  | cons h0 tl ih =>
    constructor
    · intro hall
      have h0ok : exceptOk (h0 e) = true := hall h0 (by simp)
      cases hh : h0 e with
      | error m => rw [hh] at h0ok; simp [exceptOk] at h0ok
      | ok u =>
        have htl := ih.1 (fun h hm => hall h (by simp [hm]))
        have e1 : invokedCount (h0 :: tl) e = 1 + invokedCount tl e := by
          simp [invokedCount, hh]
        have e2 : runHandlers (h0 :: tl) e = runHandlers tl e := by
          simp [runHandlers, hh]
        refine ⟨?_, ?_⟩
        · rw [e1, htl.1, List.length_cons]
          omega
        · rw [e2, htl.2]
    · intro i msg hget hprev
      cases i with
      | zero =>
        have h0err : h0 e = .error msg := by simpa using hget
        simp [invokedCount, runHandlers, h0err]
      | succ n =>
        have h0ok : exceptOk (h0 e) = true :=
          hprev 0 h0 (Nat.succ_pos n) rfl
        cases hh : h0 e with
        | error m => rw [hh] at h0ok; simp [exceptOk] at h0ok
        | ok u =>
          have htl := ih.2 n msg (by simpa using hget)
            (fun j hj hlt hg => hprev (j + 1) hj (by omega)
              (by simpa using hg))
          have e1 : invokedCount (h0 :: tl) e = 1 + invokedCount tl e := by
            simp [invokedCount, hh]
          have e2 : runHandlers (h0 :: tl) e = runHandlers tl e := by
            simp [runHandlers, hh]
          refine ⟨?_, ?_⟩
          · rw [e1, htl.1]
            omega
          · rw [e2, htl.2]

theorem le_maxScore (req : List Cap) (agents : Registry) (a : Subagent)
    (h : a ∈ agents) : matchScore req a ≤ maxScore req agents := by
  induction agents with
  | nil => simp at h
  | cons hd tl ih =>
    rcases List.mem_cons.mp h with h | h
    · subst h
      simp [maxScore]
    · exact le_trans (ih h) (by simp [maxScore])

theorem maxScore_eq_zero_iff (req : List Cap) (agents : Registry) :
    maxScore req agents = 0 ↔ ∀ a ∈ agents, matchScore req a = 0 := by
  induction agents with
  | nil => simp [maxScore]
  | cons hd tl ih =>
    simp only [maxScore, List.foldr_cons, Nat.max_eq_zero_iff]
    constructor
    · rintro ⟨h1, h2⟩ a ha
      rcases List.mem_cons.mp ha with h | h
      · exact h ▸ h1
      · exact (ih.mp h2) a h
    · intro h
      exact ⟨h hd (by simp), ih.mpr (fun a ha => h a (by simp [ha]))⟩

theorem maxScore_attained (req : List Cap) (agents : Registry)
    (h : maxScore req agents ≠ 0) :
    ∃ a ∈ agents, matchScore req a = maxScore req agents := by
  induction agents with
  | nil => simp [maxScore] at h
  | cons hd tl ih =>
    have hmax : maxScore req (hd :: tl) =
        max (matchScore req hd) (maxScore req tl) := rfl
    by_cases hc : maxScore req tl ≤ matchScore req hd
    · exact ⟨hd, by simp, by rw [hmax, Nat.max_eq_left hc]⟩
    · push_neg at hc
      have htl : maxScore req tl ≠ 0 := by omega
      obtain ⟨a, ha, hsc⟩ := ih htl
      exact ⟨a, by simp [ha],
        by rw [hmax, Nat.max_eq_right (le_of_lt hc)]; exact hsc⟩

theorem findq_split {α : Type} (p : α → Bool) (l : List α) (a : α)
    (h : l.find? p = some a) :
    p a = true ∧ ∃ l1 l2, l = l1 ++ a :: l2 ∧ ∀ b ∈ l1, p b = false := by
  induction l with
  | nil => simp at h
  | cons hd tl ih =>
    by_cases hp : p hd
    · rw [List.find?_cons_of_pos _ hp] at h
      cases h
      exact ⟨hp, [], tl, rfl, by simp⟩
    · rw [List.find?_cons_of_neg _ (by simpa using hp)] at h
      obtain ⟨hpa, l1, l2, hsplit, hall⟩ := ih h
      refine ⟨hpa, hd :: l1, l2, by simp [hsplit], ?_⟩
      intro b hb
      rcases List.mem_cons.mp hb with h | h
      · subst h
        simpa using hp
      · exact hall b h

theorem findq_isSome_of_mem {α : Type} (p : α → Bool) (l : List α) (a : α)
    (ha : a ∈ l) (hpa : p a = true) : ∃ c, l.find? p = some c := by
  induction l with
  | nil => simp at ha
  | cons hd tl ih =>
    by_cases hp : p hd
    · exact ⟨hd, List.find?_cons_of_pos _ hp⟩
    · rcases List.mem_cons.mp ha with h | h
      · subst h
        exact absurd hpa (by simpa using hp)
      · obtain ⟨c, hc⟩ := ih h
        exact ⟨c, by rw [List.find?_cons_of_neg _ (by simpa using hp)]; exact hc⟩

/-- The scan of `findBestMatch`, characterised: starting from a current
best score `bs`, the loop returns its carried candidate unchanged when no
remaining agent strictly beats `bs`, and otherwise returns the first
remaining agent that attains the greatest remaining score. -/
theorem bestLoop_char (req : List Cap) (agents : Registry) :
    ∀ (best : Option Subagent) (bs : Nat),
    bestLoop req agents best bs =
      if maxScore req agents ≤ bs then best
      else agents.find?
        (fun a => matchScore req a == maxScore req agents) := by
  induction agents with
  | nil =>
    intro best bs
    simp [bestLoop, maxScore]
  | cons hd tl ih =>
    intro best bs
    have hmax : maxScore req (hd :: tl) =
        max (matchScore req hd) (maxScore req tl) := rfl
    by_cases hlt : bs < matchScore req hd
    · rw [bestLoop, if_pos hlt, ih]
      by_cases hMr : maxScore req tl ≤ matchScore req hd
      · rw [if_pos hMr, hmax]
        have hM : max (matchScore req hd) (maxScore req tl) =
            matchScore req hd := Nat.max_eq_left hMr
        rw [hM, if_neg (by omega)]
        rw [List.find?_cons_of_pos _ (by simp)]
      · push_neg at hMr
        have hM : max (matchScore req hd) (maxScore req tl) =
            maxScore req tl := Nat.max_eq_right (le_of_lt hMr)
        rw [if_neg (by omega), hmax, hM, if_neg (by omega)]
        rw [List.find?_cons_of_neg _ (by simp; omega)]
    · push_neg at hlt
      rw [bestLoop, if_neg (by omega), ih, hmax]
      by_cases hMr : maxScore req tl ≤ bs
      · rw [if_pos hMr, if_pos (by omega)]
      · push_neg at hMr
        have hM : max (matchScore req hd) (maxScore req tl) =
            maxScore req tl := Nat.max_eq_right (by omega)
        rw [if_neg (by omega), hM, if_neg (by omega)]
        rw [List.find?_cons_of_neg _ (by simp; omega)]

/-- C2: `findBestMatch` returns nothing exactly when no registered
descriptor satisfies any required capability, and otherwise returns a
registered descriptor of strictly positive score that no other descriptor
beats, the first-registered one among those attaining that score (every
earlier descriptor scores strictly lower). -/
theorem findBestMatch_correct (agents : Registry) (req : List Cap) :
    (findBestMatch agents req = none ↔
      ∀ b ∈ agents, matchScore req b = 0) ∧
    (∀ a, findBestMatch agents req = some a →
      a ∈ agents ∧ 0 < matchScore req a ∧
      (∀ b ∈ agents, matchScore req b ≤ matchScore req a) ∧
      ∃ l1 l2, agents = l1 ++ a :: l2 ∧
        ∀ b ∈ l1, matchScore req b < matchScore req a) := by
  have hchar := bestLoop_char req agents none 0
  simp only [Nat.le_zero] at hchar
  constructor
  · constructor
    · intro hnone
      rw [← maxScore_eq_zero_iff]
      by_contra hM
      obtain ⟨a, ha, hsc⟩ := maxScore_attained req agents hM
      obtain ⟨c, hc⟩ := findq_isSome_of_mem
        (fun a => matchScore req a == maxScore req agents) agents a ha
        (by simp [hsc])
      rw [findBestMatch, hchar, if_neg hM, hc] at hnone
      exact Option.noConfusion hnone
    · intro hz
      rw [findBestMatch, hchar, if_pos ((maxScore_eq_zero_iff req agents).mpr hz)]
  · intro a hsome
    rw [findBestMatch, hchar] at hsome
    by_cases hM : maxScore req agents = 0
    · rw [if_pos hM] at hsome
      exact Option.noConfusion hsome
    · rw [if_neg hM] at hsome
      obtain ⟨hpa, l1, l2, hsplit, hall⟩ := findq_split _ _ _ hsome
      have hamem : a ∈ agents := by
        rw [hsplit]
        simp
      have hsc : matchScore req a = maxScore req agents := by simpa using hpa
      refine ⟨hamem, by omega, ?_, l1, l2, hsplit, ?_⟩
      · intro b hb
        rw [hsc]
        exact le_maxScore req agents b hb
      · intro b hb
        have hble : matchScore req b ≤ maxScore req agents :=
          le_maxScore req agents b (by rw [hsplit]; simp [hb])
        have hbne : (matchScore req b == maxScore req agents) = false :=
          hall b hb
        simp only [beq_eq_false_iff_ne, ne_eq] at hbne
        omega

/-- Witness for C2: the spec §8 example — required `[code, testing,
aesthetics]` against `{code, testing}` then `{code, testing, aesthetics}`
returns the second descriptor, which is a member scoring positively. -/
theorem findBestMatch_correct_w :
    sparkDescriptor ∈ [smallDescriptor, sparkDescriptor] ∧
    0 < matchScore [.code, .testing, .aesthetics] sparkDescriptor :=
  ⟨((findBestMatch_correct [smallDescriptor, sparkDescriptor]
      [.code, .testing, .aesthetics]).2 sparkDescriptor rfl).1,
   ((findBestMatch_correct [smallDescriptor, sparkDescriptor]
      [.code, .testing, .aesthetics]).2 sparkDescriptor rfl).2.1⟩

theorem append_ifs_eq_filter {α : Type} (x1 x2 x3 x4 x5 x6 : α)
    (p : α → Bool) :
    (if p x1 then [x1] else []) ++ (if p x2 then [x2] else []) ++
    (if p x3 then [x3] else []) ++ (if p x4 then [x4] else []) ++
    (if p x5 then [x5] else []) ++ (if p x6 then [x6] else []) =
    List.filter p [x1, x2, x3, x4, x5, x6] := by
  cases hp1 : p x1 <;> cases hp2 : p x2 <;> cases hp3 : p x3 <;>
    cases hp4 : p x4 <;> cases hp5 : p x5 <;> cases hp6 : p x6 <;>
    simp [List.filter_cons, hp1, hp2, hp3, hp4, hp5, hp6]

theorem ifLength_eq_ifNil (l : List Cap) :
    (if 0 < l.length then l else [Cap.code]) =
    (if l = [] then [Cap.code] else l) := by
  cases l <;> simp

/-- C9: capability inference returns an explicit capability list
verbatim; otherwise it matches the lowercased name-and-description text
against the fixed keyword table, keeps every matched tag, and defaults to
`[code]` when no keyword group matches. -/
theorem inferCapabilities_spec (e : Option (List Cap)) (n d : String) :
    inferCapabilities e n d =
      match e with
      | some caps => caps
      | none =>
        let m := specInferred ((n ++ " " ++ d).toLower)
        if m = [] then [.code] else m := by
  cases e with
  | some caps => rfl
  | none =>
    have e1 : ∀ t, (keywordsFor Cap.code).any (fun kw => strContains t kw) =
        (strContains t "code" || strContains t "build" ||
         strContains t "develop") := by
      intro t
      simp [keywordsFor, Bool.or_assoc]
    have e2 : ∀ t, (keywordsFor Cap.testing).any (fun kw => strContains t kw) =
        (strContains t "test" || strContains t "verify") := by
      intro t
      simp [keywordsFor]
    have e3 : ∀ t,
        (keywordsFor Cap.aesthetics).any (fun kw => strContains t kw) =
        (strContains t "design" || strContains t "ui" ||
         strContains t "style") := by
      intro t
      simp [keywordsFor, Bool.or_assoc]
    have e4 : ∀ t,
        (keywordsFor Cap.research).any (fun kw => strContains t kw) =
        (strContains t "research" || strContains t "search" ||
         strContains t "find") := by
      intro t
      simp [keywordsFor, Bool.or_assoc]
    have e5 : ∀ t,
        (keywordsFor Cap.presentation).any (fun kw => strContains t kw) =
        (strContains t "presentation" || strContains t "slide" ||
         strContains t "ppt") := by
      intro t
      simp [keywordsFor, Bool.or_assoc]
    have e6 : ∀ t,
        (keywordsFor Cap.multimodal).any (fun kw => strContains t kw) =
        (strContains t "image" || strContains t "video" ||
         strContains t "audio") := by
      intro t
      simp [keywordsFor, Bool.or_assoc]
    show (let text := (n ++ " " ++ d).toLower
      let caps : List Cap :=
        (if strContains text "code" || strContains text "build" ||
            strContains text "develop" then [.code] else []) ++
        (if strContains text "test" || strContains text "verify"
            then [.testing] else []) ++
        (if strContains text "design" || strContains text "ui" ||
            strContains text "style" then [.aesthetics] else []) ++
        (if strContains text "research" || strContains text "search" ||
            strContains text "find" then [.research] else []) ++
        (if strContains text "presentation" || strContains text "slide" ||
            strContains text "ppt" then [.presentation] else []) ++
        (if strContains text "image" || strContains text "video" ||
            strContains text "audio" then [.multimodal] else [])
      if 0 < caps.length then caps else [.code]) =
      (let m := specInferred ((n ++ " " ++ d).toLower)
       if m = [] then [.code] else m)
    simp only [← e1, ← e2, ← e3, ← e4, ← e5, ← e6]
    rw [append_ifs_eq_filter Cap.code Cap.testing Cap.aesthetics Cap.research
      Cap.presentation Cap.multimodal
      (fun c => (keywordsFor c).any
        (fun kw => strContains ((n ++ " " ++ d).toLower) kw))]
    exact ifLength_eq_ifNil _

theorem seqLoop_length (reg : Registry) (backend : Work → Except String Value)
    (propagate : Bool) (works : List Work) :
    ∀ (s : TaskStore) (idx : Nat) (accum : Ctx),
    (seqLoop reg backend propagate s works idx accum).2.length =
      works.length := by
  induction works with
  | nil => intro s idx accum; rfl
  | cons w rest ih =>
    intro s idx accum
    simp [seqLoop, ih]

theorem seqLoop_context (reg : Registry) (backend : Work → Except String Value)
    (works : List Work) :
    ∀ (s : TaskStore) (idx : Nat) (accum : Ctx) (i : Nat) (w : Work),
    works.get? i = some w →
    ∃ pr, (seqLoop reg backend true s works idx accum).2.get? i = some pr ∧
      pr.1 = enrichWith w (accum ++ accumOf
        (((seqLoop reg backend true s works idx accum).2.map (·.2)).take i)
        idx) := by
  induction works with
  | nil => intro s idx accum i w h; simp at h
  | cons w0 rest ih =>
    intro s idx accum i w h
    cases i with
    | zero =>
      have hw : w0 = w := by simpa using h
      subst hw
      refine ⟨_, rfl, ?_⟩
      simp [enrichWith, accumOf]
    | succ n =>
      have h' : rest.get? n = some w := by simpa using h
      obtain ⟨pr, hget, hctx⟩ := ih
        (delegateOne reg backend s
          { w0 with context := ctxMerge w0.context accum }).1
        (idx + 1)
        (accum ++ resultEntry
          (delegateOne reg backend s
            { w0 with context := ctxMerge w0.context accum }).2 idx)
        n w h'
      refine ⟨pr, ?_, ?_⟩
      · simpa [seqLoop] using hget
      · rw [hctx]
        have heq : (((seqLoop reg backend true s (w0 :: rest) idx accum).2.map
            (·.2)).take (n + 1)) =
            (delegateOne reg backend s
              { w0 with context := ctxMerge w0.context accum }).2 ::
            (((seqLoop reg backend true
                (delegateOne reg backend s
                  { w0 with context := ctxMerge w0.context accum }).1
                rest (idx + 1)
                (accum ++ resultEntry
                  (delegateOne reg backend s
                    { w0 with context := ctxMerge w0.context accum }).2
                  idx)).2.map (·.2)).take n) := by
          simp [seqLoop]
        rw [heq, accumOf, List.append_assoc]

/-- C4 counterexample: over `[work0, work1, work2]` where attempt 0 fails
and attempt 1 succeeds with output `'x'`, the third item's effective
context carries the single prior successful output under `result_1` — its
attempt index — and carries no `result_0`, although `'x'` is the first
(index 0) among prior successful results. -/
theorem seq_context_key_cex :
    (seqCexTrace.get? 2).map (fun pr => ctxLookup pr.1.context "result_1") =
      some (some (.vstr "x")) ∧
    (seqCexTrace.get? 2).map (fun pr => ctxLookup pr.1.context "result_0") =
      some none ∧
    (seqCexTrace.get? 0).map (fun pr => pr.2.success) = some false ∧
    (seqCexTrace.get? 1).map (fun pr => pr.2.success) = some true :=
  ⟨rfl, rfl, rfl, rfl⟩

/-- C4 amended: with context propagation enabled, before each invocation
the item's context is merged (accumulated entries winning) with the
outputs of all prior successful truthy-output items under keys
`result_i`, where `i` is the contributing item's absolute attempt index —
its slot in the results array — not its rank among successes; failed
attempts occupy a slot in the results array but contribute no key. -/
theorem delegateSequential_context (reg : Registry)
    (backend : Work → Except String Value) (s : TaskStore)
    (works : List Work) (i : Nat) (w : Work) (h : works.get? i = some w) :
    (delegateSequential reg backend s works true).2.length = works.length ∧
    ∃ pr, (seqLoop reg backend true s works 0 []).2.get? i = some pr ∧
      pr.1 = enrichWith w (accumOf
        (((seqLoop reg backend true s works 0 []).2.map (·.2)).take i)
        0) := by
  constructor
  · simp [delegateSequential, seqLoop_length]
  · simpa using seqLoop_context reg backend works s 0 [] i w h

/-- Witness for the amended C4 at the concrete three-item run: the third
item's enriched context is its own context merged with the accumulated
`result_1` entry. -/
theorem delegateSequential_context_w :
    (delegateSequential sparkOnlyReg failFirstBackend {}
      [work0, work1, work2] true).2.length = 3 ∧
    ∃ pr, seqCexTrace.get? 2 = some pr ∧
      pr.1 = enrichWith work2
        (accumOf ((seqCexTrace.map (·.2)).take 2) 0) :=
  delegateSequential_context sparkOnlyReg failFirstBackend {}
    [work0, work1, work2] 2 work2 rfl

/-- The non-taskId fields of a delegation's result depend only on the
registry, the backend's answer for the item and the item itself — never
on the task store (only the fresh task id read from the store reaches the
result, in `taskId`). -/
theorem delegateOne_core_store_indep (reg : Registry)
    (backend : Work → Except String Value) (w : Work) (s s' : TaskStore) :
    resultCore (delegateOne reg backend s w).2 =
      resultCore (delegateOne reg backend s' w).2 := by
  unfold delegateOne
  cases findBestMatch reg w.capabilities with
  | none => rfl
  | some agent =>
    by_cases hid : agent.id = "spark-agent"
    · simp only [hid, if_pos]
      unfold sparkExecute
      cases backend w <;> rfl
    · simp only [if_neg hid]

/-- C8: `delegateParallel` returns one result per input item, the i-th
being the delegation of the i-th item; apart from the fresh task-id
numbering, each entry is the delegation of its own item against any
store state whatsoever, so one item's failure cannot alter the others;
the returned list is complete (every item has settled). -/
theorem delegateParallel_correct (reg : Registry)
    (backend : Work → Except String Value) (s : TaskStore)
    (works : List Work) :
    (delegateParallel reg backend s works).2.length = works.length ∧
    (∀ i w, works.get? i = some w →
      ∃ r, (delegateParallel reg backend s works).2.get? i = some r ∧
        ∀ s' : TaskStore,
          resultCore r = resultCore (delegateOne reg backend s' w).2) := by
  induction works generalizing s with
  | nil =>
    refine ⟨rfl, ?_⟩
    intro i w h
    simp at h
  | cons w0 rest ih =>
    refine ⟨?_, ?_⟩
    · simp [delegateParallel, (ih (delegateOne reg backend s w0).1).1]
    · intro i w h
      cases i with
      | zero =>
        have hw : w0 = w := by simpa using h
        subst hw
        refine ⟨(delegateOne reg backend s w0).2, rfl, ?_⟩
        intro s'
        exact delegateOne_core_store_indep reg backend w0 s s'
      | succ n =>
        have h' : rest.get? n = some w := by simpa using h
        obtain ⟨r, hget, hcore⟩ :=
          (ih (delegateOne reg backend s w0).1).2 n w h'
        exact ⟨r, by simpa [delegateParallel] using hget, hcore⟩

/-- Witness for C8 on the three-item run whose first item fails: the run
has three entries and the middle entry is item 1's own delegation. -/
theorem delegateParallel_correct_w :
    (delegateParallel sparkOnlyReg failFirstBackend {}
      [work0, work1, work2]).2.length = 3 ∧
    ∃ r, (delegateParallel sparkOnlyReg failFirstBackend {}
        [work0, work1, work2]).2.get? 1 = some r ∧
      ∀ s' : TaskStore,
        resultCore r =
          resultCore (delegateOne sparkOnlyReg failFirstBackend s' work1).2 :=
  ⟨(delegateParallel_correct sparkOnlyReg failFirstBackend {}
      [work0, work1, work2]).1,
   (delegateParallel_correct sparkOnlyReg failFirstBackend {}
      [work0, work1, work2]).2 1 work1 rfl⟩

/-- C10: `SparkAgentClient.execute` creates exactly one new task and
never raises (it is total, returning a result in both branches): the task
is created at the fresh id with `createdAt` at the current clock,
immediately started, and ends terminal — completed with the parsed
backend response stored as its `result` and the response's `output` field
returned when the call succeeds, failed with the thrown message when it
does not; the returned result's `taskId` is that task's id and its
`success` flag is true exactly when the task ended completed; no other
task of the store is touched. -/
theorem sparkExecute_correct (s : TaskStore) (outcome : Except String Value)
    (w : Work) (hwf : TaskStore.wf s) :
    (sparkExecute s outcome w).1.tasks.length = s.tasks.length + 1 ∧
    (sparkExecute s outcome w).2.taskId = some s.nextId ∧
    (∀ k, k ≠ s.nextId →
      TaskStore.getTask (sparkExecute s outcome w).1.tasks k =
        TaskStore.getTask s.tasks k) ∧
    ∃ t, TaskStore.getTask (sparkExecute s outcome w).1.tasks s.nextId =
        some t ∧
      t.status.isTerminal = true ∧
      ((sparkExecute s outcome w).2.success = true ↔
        t.status = .completed) ∧
      t.createdAt = s.clock ∧
      t.startedAt = some (s.clock + 1) ∧
      (∀ v, outcome = .ok v → t.status = .completed ∧ t.result = some v ∧
        (sparkExecute s outcome w).2.output = v.field "output") ∧
      (∀ m, outcome = .error m → t.status = .failed ∧ t.errMsg = some m ∧
        (sparkExecute s outcome w).2.errMsg = some m) := by
  have h0 : TaskStore.getTask s.tasks s.nextId = none := getTask_fresh_none s hwf
  cases outcome with
  | ok v =>
    simp only [sparkExecute, TaskStore.create, TaskStore.start,
      TaskStore.finish, getTask_setTask_self]
    refine ⟨?_, by simp, ?_, _, rfl, rfl, by simp, rfl, rfl, ?_, ?_⟩
    · rw [setTask_length_present _ _ _ (by rw [getTask_setTask_self]; rfl),
        setTask_length_present _ _ _ (by rw [getTask_setTask_self]; rfl),
        setTask_length_new _ _ _ h0]
    · intro k hk
      rw [getTask_setTask_ne _ _ _ _ hk, getTask_setTask_ne _ _ _ _ hk,
        getTask_setTask_ne _ _ _ _ hk]
    · intro v' hv
      cases hv
      exact ⟨rfl, rfl, rfl⟩
    · intro m hm
      simp at hm
  | error m =>
    simp only [sparkExecute, TaskStore.create, TaskStore.start,
      TaskStore.error, getTask_setTask_self]
    refine ⟨?_, by simp, ?_, _, rfl, rfl, by simp, rfl, rfl, ?_, ?_⟩
    · rw [setTask_length_present _ _ _ (by rw [getTask_setTask_self]; rfl),
        setTask_length_present _ _ _ (by rw [getTask_setTask_self]; rfl),
        setTask_length_new _ _ _ h0]
    · intro k hk
      rw [getTask_setTask_ne _ _ _ _ hk, getTask_setTask_ne _ _ _ _ hk,
        getTask_setTask_ne _ _ _ _ hk]
    · intro v' hv
      simp at hv
    · intro m' hm
      cases hm
      exact ⟨rfl, rfl, rfl⟩

/-- Witness for C10: a concrete successful call on the empty store. -/
theorem sparkExecute_correct_w :
    (sparkExecute {} (.ok (.vobj [("output", .vstr "x")])) work1).1.tasks.length
      = 1 ∧
    (sparkExecute {} (.ok (.vobj [("output", .vstr "x")])) work1).2.taskId =
      some 0 ∧
    (∀ k, k ≠ 0 →
      TaskStore.getTask
        (sparkExecute {} (.ok (.vobj [("output", .vstr "x")])) work1).1.tasks k
        = TaskStore.getTask ({} : TaskStore).tasks k) ∧
    ∃ t, TaskStore.getTask
        (sparkExecute {} (.ok (.vobj [("output", .vstr "x")])) work1).1.tasks 0
        = some t ∧
      t.status.isTerminal = true ∧
      ((sparkExecute {} (.ok (.vobj [("output", .vstr "x")])) work1).2.success
        = true ↔ t.status = .completed) ∧
      t.createdAt = 0 ∧
      t.startedAt = some 1 ∧
      (∀ v, (.ok (.vobj [("output", .vstr "x")]) : Except String Value) =
          .ok v →
        t.status = .completed ∧ t.result = some v ∧
        (sparkExecute {} (.ok (.vobj [("output", .vstr "x")])) work1).2.output
          = v.field "output") ∧
      (∀ m, (.ok (.vobj [("output", .vstr "x")]) : Except String Value) =
          .error m →
        t.status = .failed ∧ t.errMsg = some m ∧
        (sparkExecute {} (.ok (.vobj [("output", .vstr "x")])) work1).2.errMsg
          = some m) :=
  sparkExecute_correct {} (.ok (.vobj [("output", .vstr "x")])) work1
    (by intro p hp; simp at hp)

theorem mem_setTask (ts : List (Nat × Task)) (id : Nat) (t' : Task)
    (p : Nat × Task) (hp : p ∈ TaskStore.setTask ts id t') :
    p ∈ ts ∨ p = (id, t') := by
  induction ts with
  | nil =>
    simp [TaskStore.setTask] at hp
    exact Or.inr hp
  | cons hd tl ih =>
    by_cases h : hd.1 = id
    · simp only [TaskStore.setTask, if_pos h, List.mem_cons] at hp
      rcases hp with hp | hp
      · exact Or.inr hp
      · exact Or.inl (by simp [hp])
    · simp only [TaskStore.setTask, if_neg h, List.mem_cons] at hp
      rcases hp with hp | hp
      · exact Or.inl (by simp [hp])
      · rcases ih hp with hq | hq
        · exact Or.inl (by simp [hq])
        · exact Or.inr hq

theorem setTask_keys_bound (ts : List (Nat × Task)) (id : Nat) (t' : Task)
    (n : Nat) (hts : ∀ p ∈ ts, p.1 < n) (hid : id < n) :
    ∀ p ∈ TaskStore.setTask ts id t', p.1 < n := by
  intro p hp
  rcases mem_setTask ts id t' p hp with h | h
  · exact hts p h
  · rw [h]
    exact hid

theorem mem_of_getTask (ts : List (Nat × Task)) (id : Nat) (t : Task)
    (h : TaskStore.getTask ts id = some t) : (id, t) ∈ ts := by
  induction ts with
  | nil => simp [TaskStore.getTask] at h
  | cons hd tl ih =>
    by_cases hk : hd.1 = id
    · simp only [TaskStore.getTask, if_pos hk] at h
      cases h
      rw [← hk]
      simp
    · simp only [TaskStore.getTask, if_neg hk] at h
      exact List.mem_cons_of_mem hd (ih h)

/-- The per-action effects of `executeAction` that the bucket loop needs:
exactly one task added under the fresh id, the fresh counter advanced,
well-formedness kept, every other task untouched, and an error surfaced
precisely when the action fails under the backend oracle. -/
theorem executeAction_effects (env : PlanAction → MCPResponse)
    (s : TaskStore) (a : PlanAction) (pid : Nat) (hwf : TaskStore.wf s) :
    (executeAction env s a pid).1.tasks.length = s.tasks.length + 1 ∧
    (executeAction env s a pid).1.nextId = s.nextId + 1 ∧
    TaskStore.wf (executeAction env s a pid).1 ∧
    (∀ k, k ≠ s.nextId →
      TaskStore.getTask (executeAction env s a pid).1.tasks k =
        TaskStore.getTask s.tasks k) ∧
    (executeAction env s a pid).2 =
      (if actionFails env a then some ((env a).errMsg.getD "") else none) := by
  have h0 : TaskStore.getTask s.tasks s.nextId = none := getTask_fresh_none s hwf
  have hbound : ∀ p ∈ s.tasks, p.1 < s.nextId + 1 :=
    fun p hp => Nat.lt_succ_of_lt (hwf p hp)
  have hlt : s.nextId < s.nextId + 1 := Nat.lt_succ_self _
  cases ht : a.target.type with
  | mcp =>
    cases hsucc : (env a).success with
    | true =>
      simp only [executeAction, TaskStore.create, TaskStore.start,
        TaskStore.finish, getTask_setTask_self, ht, hsucc, if_pos]
      refine ⟨?_, trivial, ?_, ?_, ?_⟩
      · rw [setTask_length_present _ _ _ (by rw [getTask_setTask_self]; rfl),
          setTask_length_present _ _ _ (by rw [getTask_setTask_self]; rfl),
          setTask_length_new _ _ _ h0]
      · intro p hp
        exact setTask_keys_bound _ _ _ _
          (setTask_keys_bound _ _ _ _
            (setTask_keys_bound _ _ _ _ hbound hlt) hlt) hlt p hp
      · intro k hk
        rw [getTask_setTask_ne _ _ _ _ hk, getTask_setTask_ne _ _ _ _ hk,
          getTask_setTask_ne _ _ _ _ hk]
      · simp [actionFails, ht, hsucc]
    | false =>
      simp only [executeAction, TaskStore.create, TaskStore.start,
        TaskStore.error, getTask_setTask_self, ht, hsucc, Bool.false_eq_true,
        if_neg (by simp : ¬False)]
      refine ⟨?_, trivial, ?_, ?_, ?_⟩
      · rw [setTask_length_present _ _ _ (by rw [getTask_setTask_self]; rfl),
          setTask_length_present _ _ _ (by rw [getTask_setTask_self]; rfl),
          setTask_length_new _ _ _ h0]
      · intro p hp
        exact setTask_keys_bound _ _ _ _
          (setTask_keys_bound _ _ _ _
            (setTask_keys_bound _ _ _ _ hbound hlt) hlt) hlt p hp
      · intro k hk
        rw [getTask_setTask_ne _ _ _ _ hk, getTask_setTask_ne _ _ _ _ hk,
          getTask_setTask_ne _ _ _ _ hk]
      · simp [actionFails, ht, hsucc]
  | subagent =>
    simp only [executeAction, TaskStore.create, TaskStore.start,
      TaskStore.finish, getTask_setTask_self, ht]
    refine ⟨?_, trivial, ?_, ?_, ?_⟩
    · rw [setTask_length_present _ _ _ (by rw [getTask_setTask_self]; rfl),
        setTask_length_present _ _ _ (by rw [getTask_setTask_self]; rfl),
        setTask_length_new _ _ _ h0]
    · intro p hp
      exact setTask_keys_bound _ _ _ _
        (setTask_keys_bound _ _ _ _
          (setTask_keys_bound _ _ _ _ hbound hlt) hlt) hlt p hp
    · intro k hk
      rw [getTask_setTask_ne _ _ _ _ hk, getTask_setTask_ne _ _ _ _ hk,
        getTask_setTask_ne _ _ _ _ hk]
    · simp [actionFails, ht]

/-- C6 (behaviour at the failing input): for every plan action,
`executeAction` creates a child task under the fresh id with `parentId`
set to the parent plan task's id and `type` equal to the action's target
kind, and starts it. An `mcp` (tool-call) action is then dispatched to
the tool-call backend, whose response settles the child. A `subagent`
(delegated) action, however, is **not** dispatched to the Delegation
Engine: the TODO stub finishes the child immediately with the placeholder
result `{ status: 'subagent_pending' }` and never fails. -/
theorem executeAction_dispatch (env : PlanAction → MCPResponse)
    (s : TaskStore) (a : PlanAction) (pid : Nat) :
    ∃ t, TaskStore.getTask (executeAction env s a pid).1.tasks s.nextId =
        some t ∧
      t.parentId = some pid ∧
      t.kind = a.target.type.str ∧
      t.name = a.name ∧
      t.metadata = [("actionId", .vstr a.id)] ∧
      t.createdAt = s.clock ∧
      t.startedAt = some (s.clock + 1) ∧
      (a.target.type = .mcp → (env a).success = true →
        t.status = .completed ∧ t.result = (env a).data ∧
        (executeAction env s a pid).2 = none) ∧
      (a.target.type = .mcp → (env a).success = false →
        t.status = .failed ∧ t.errMsg = some ((env a).errMsg.getD "") ∧
        (executeAction env s a pid).2 = some ((env a).errMsg.getD "")) ∧
      (a.target.type = .subagent →
        t.status = .completed ∧
        t.result = some (.vobj [("status", .vstr "subagent_pending")]) ∧
        (executeAction env s a pid).2 = none) := by
  cases ht : a.target.type with
  | mcp =>
    cases hsucc : (env a).success with
    | true =>
      simp only [executeAction, TaskStore.create, TaskStore.start,
        TaskStore.finish, getTask_setTask_self, ht, hsucc, if_pos]
      refine ⟨_, rfl, rfl, by simp [ht], rfl, rfl, rfl, rfl, ?_, ?_, ?_⟩
      · intro _ _
        refine ⟨rfl, rfl, ?_⟩
        trivial
      · intro _ hfalse
        simp at hfalse
      · intro hsub
        simp at hsub
    | false =>
      simp only [executeAction, TaskStore.create, TaskStore.start,
        TaskStore.error, getTask_setTask_self, ht, hsucc, Bool.false_eq_true,
        if_neg (by simp : ¬False)]
      refine ⟨_, rfl, rfl, by simp [ht], rfl, rfl, rfl, rfl, ?_, ?_, ?_⟩
      · intro _ htrue
        simp at htrue
      · intro _ _
        refine ⟨rfl, rfl, ?_⟩
        trivial
      · intro hsub
        simp at hsub
  | subagent =>
    simp only [executeAction, TaskStore.create, TaskStore.start,
      TaskStore.finish, getTask_setTask_self, ht]
    refine ⟨_, rfl, rfl, by simp [ht], rfl, rfl, rfl, rfl, ?_, ?_, ?_⟩
    · intro hmcp
      simp at hmcp
    · intro hmcp
      simp at hmcp
    · intro _
      refine ⟨rfl, rfl, ?_⟩
      trivial

/-- Witness / failing-input evaluation for C6: the concrete delegated
action `subagentAction` run under a parent task id 7 — the child ends
`completed` with the placeholder result, untouched by any delegation. -/
theorem executeAction_dispatch_w :
    ∃ t, TaskStore.getTask
        (executeAction plannerEnv {} subagentAction 7).1.tasks 0 = some t ∧
      t.parentId = some 7 ∧
      t.status = .completed ∧
      t.result = some (.vobj [("status", .vstr "subagent_pending")]) ∧
      (executeAction plannerEnv {} subagentAction 7).2 = none := by
  obtain ⟨t, hget, hpar, _, _, _, _, _, _, _, hsub⟩ :=
    executeAction_dispatch plannerEnv {} subagentAction 7
  exact ⟨t, hget, hpar, (hsub rfl).1, (hsub rfl).2.1, (hsub rfl).2.2⟩

theorem lookupG_addToGroups (gs : List (Int × List PlanAction))
    (a : PlanAction) (k : Int) :
    lookupG (addToGroups gs a) k =
      if orderOf a = k then some ((lookupG gs k).getD [] ++ [a])
      else lookupG gs k := by
  induction gs with
  | nil =>
    by_cases hk : orderOf a = k <;> simp [addToGroups, lookupG, hk]
  | cons g rest ih =>
    by_cases hg : g.1 = orderOf a
    · by_cases hk : g.1 = k
      · have ho : orderOf a = k := by omega
        simp [addToGroups, lookupG, hg, hk, ho]
      · have ho : ¬(orderOf a = k) := by omega
        simp [addToGroups, lookupG, hg, hk, ho]
    · by_cases hk : g.1 = k
      · have ho : ¬(orderOf a = k) := by omega
        have ho' : ¬(k = orderOf a) := by omega
        simp [addToGroups, lookupG, hg, hk, ho, ho']
      · simp [addToGroups, lookupG, hg, hk, ih]

theorem lookupG_foldl (acts : List PlanAction) :
    ∀ (gs : List (Int × List PlanAction)) (k : Int),
    lookupG (acts.foldl addToGroups gs) k =
      match lookupG gs k with
      | some l => some (l ++ acts.filter (fun x => orderOf x = k))
      | none =>
        if acts.any (fun x => orderOf x = k)
        then some (acts.filter (fun x => orderOf x = k)) else none := by
  induction acts with
  | nil =>
    intro gs k
    cases h : lookupG gs k <;> simp [h]
  | cons a rest ih =>
    intro gs k
    rw [List.foldl_cons, ih (addToGroups gs a) k, lookupG_addToGroups]
    by_cases ho : orderOf a = k
    · cases hgs : lookupG gs k <;>
        simp [ho, hgs, List.filter_cons, List.any_cons]
    · cases hgs : lookupG gs k <;>
        simp [ho, hgs, List.filter_cons, List.any_cons]

/-- The bucket map built by `groupByOrder`, looked up at any order key:
exactly the actions carrying that key, in plan order. -/
theorem lookupG_groupsOf (acts : List PlanAction) (k : Int) :
    lookupG (groupsOf acts) k =
      (if acts.any (fun x => orderOf x = k)
       then some (acts.filter (fun x => orderOf x = k)) else none) := by
  rw [groupsOf, lookupG_foldl acts [] k]
  rfl

theorem lookupG_none_iff (gs : List (Int × List PlanAction)) (k : Int) :
    lookupG gs k = none ↔ k ∉ gs.map (·.1) := by
  induction gs with
  | nil => simp [lookupG]
  | cons g rest ih =>
    by_cases hk : g.1 = k <;> simp [lookupG, hk, ih, Ne.symm, eq_comm]

theorem keys_addToGroups (gs : List (Int × List PlanAction)) (a : PlanAction) :
    (addToGroups gs a).map (·.1) =
      match lookupG gs (orderOf a) with
      | none => gs.map (·.1) ++ [orderOf a]
      | some _ => gs.map (·.1) := by
  induction gs with
  | nil => simp [addToGroups, lookupG]
  | cons g rest ih =>
    by_cases hg : g.1 = orderOf a
    · simp [addToGroups, lookupG, hg]
    · simp only [addToGroups, if_neg hg, lookupG,
        if_neg (by omega : ¬g.1 = orderOf a), List.map_cons, ih]
      cases hrest : lookupG rest (orderOf a) <;> simp [hrest]

theorem groupsOf_keys_nodup (acts : List PlanAction) :
    ∀ gs : List (Int × List PlanAction),
    (gs.map (·.1)).Nodup → ((acts.foldl addToGroups gs).map (·.1)).Nodup := by
  induction acts with
  | nil => intro gs h; simpa using h
  | cons a rest ih =>
    intro gs h
    rw [List.foldl_cons]
    refine ih (addToGroups gs a) ?_
    rw [keys_addToGroups]
    cases hnone : lookupG gs (orderOf a) with
    | none =>
      have hnotmem : orderOf a ∉ gs.map (·.1) :=
        (lookupG_none_iff gs (orderOf a)).mp hnone
      simp [List.nodup_append, h, hnotmem]
    | some l => exact h

theorem lookupG_some_of_mem (gs : List (Int × List PlanAction))
    (hnd : (gs.map (·.1)).Nodup) (k : Int) (l : List PlanAction)
    (hmem : (k, l) ∈ gs) : lookupG gs k = some l := by
  induction gs with
  | nil => simp at hmem
  | cons g rest ih =>
    rw [List.map_cons, List.nodup_cons] at hnd
    rcases List.mem_cons.mp hmem with h | h
    · rw [← h]
      simp [lookupG]
    · have hk : g.1 ≠ k := by
        intro hgk
        exact hnd.1 (hgk ▸ (List.mem_map.mpr ⟨(k, l), h, rfl⟩))
      simp only [lookupG, if_neg hk]
      exact ih hnd.2 h

theorem mem_of_lookupG_some (gs : List (Int × List PlanAction)) (k : Int)
    (l : List PlanAction) (h : lookupG gs k = some l) : (k, l) ∈ gs := by
  induction gs with
  | nil => simp [lookupG] at h
  | cons g rest ih =>
    by_cases hk : g.1 = k
    · simp only [lookupG, if_pos hk] at h
      cases h
      rw [← hk]
      simp
    · simp only [lookupG, if_neg hk] at h
      exact List.mem_cons_of_mem g (ih h)

theorem lookupG_eq_of_perm (gs gs' : List (Int × List PlanAction))
    (hperm : gs.Perm gs') (hnd : (gs.map (·.1)).Nodup) (k : Int) :
    lookupG gs k = lookupG gs' k := by
  have hnd' : (gs'.map (·.1)).Nodup := ((hperm.map (·.1)).nodup_iff).mp hnd
  cases h : lookupG gs k with
  | some l =>
    exact (lookupG_some_of_mem gs' hnd' k l
      (hperm.mem_iff.mp (mem_of_lookupG_some gs k l h))).symm
  | none =>
    have : k ∉ gs'.map (·.1) := by
      intro hc
      exact (lookupG_none_iff gs k).mp h (((hperm.map (·.1)).mem_iff).mpr hc)
    exact ((lookupG_none_iff gs' k).mpr this).symm

/-- The sorted bucket list of `groupByOrder` has strictly ascending
`order` keys. -/
theorem sortedGroups_ascending (acts : List PlanAction) :
    List.Pairwise (fun p q => p.1 < q.1) (sortedGroups acts) := by
  have hsorted : List.Pairwise byOrderKey (sortedGroups acts) :=
    List.sorted_insertionSort byOrderKey (groupsOf acts)
  have hnd : ((sortedGroups acts).map (·.1)).Nodup :=
    (((List.perm_insertionSort byOrderKey (groupsOf acts)).map
      (·.1)).nodup_iff).mpr
      (groupsOf_keys_nodup acts [] (by simp))
  have hne : List.Pairwise (fun p q : Int × List PlanAction => p.1 ≠ q.1)
      (sortedGroups acts) := List.pairwise_map.mp hnd
  exact (hsorted.and hne).imp
    (fun h => lt_of_le_of_ne h.1 h.2)

/-- Bucket lookup on the sorted groups agrees with the unsorted map:
each key's bucket is the filter of the plan's actions by that key. -/
theorem lookupG_sortedGroups (acts : List PlanAction) (k : Int) :
    lookupG (sortedGroups acts) k =
      (if acts.any (fun x => orderOf x = k)
       then some (acts.filter (fun x => orderOf x = k)) else none) := by
  rw [← lookupG_eq_of_perm (groupsOf acts) (sortedGroups acts)
    (List.perm_insertionSort byOrderKey (groupsOf acts)).symm
    (groupsOf_keys_nodup acts [] (by simp)) k]
  exact lookupG_groupsOf acts k

theorem createStarted_facts (s : TaskStore) (spec : TaskSpec)
    (hwf : TaskStore.wf s) :
    (createStarted s spec).2 = s.nextId ∧
    (createStarted s spec).1.nextId = s.nextId + 1 ∧
    (createStarted s spec).1.tasks.length = s.tasks.length + 1 ∧
    TaskStore.wf (createStarted s spec).1 ∧
    (∀ k, k ≠ s.nextId →
      TaskStore.getTask (createStarted s spec).1.tasks k =
        TaskStore.getTask s.tasks k) ∧
    ∃ t, TaskStore.getTask (createStarted s spec).1.tasks s.nextId =
        some t ∧
      t.kind = spec.kind ∧ t.status = .running ∧ t.name = spec.name := by
  have h0 : TaskStore.getTask s.tasks s.nextId = none := getTask_fresh_none s hwf
  have hbound : ∀ p ∈ s.tasks, p.1 < s.nextId + 1 :=
    fun p hp => Nat.lt_succ_of_lt (hwf p hp)
  have hlt : s.nextId < s.nextId + 1 := Nat.lt_succ_self _
  simp only [createStarted, TaskStore.create, TaskStore.start,
    getTask_setTask_self]
  refine ⟨trivial, trivial, ?_, ?_, ?_, _, rfl, rfl, rfl, rfl⟩
  · rw [setTask_length_present _ _ _ (by rw [getTask_setTask_self]; rfl),
      setTask_length_new _ _ _ h0]
  · intro p hp
    exact setTask_keys_bound _ _ _ _
      (setTask_keys_bound _ _ _ _ hbound hlt) hlt p hp
  · intro k hk
    rw [getTask_setTask_ne _ _ _ _ hk, getTask_setTask_ne _ _ _ _ hk]

theorem runBucket_effects (env : PlanAction → MCPResponse) (pid : Nat)
    (g : List PlanAction) :
    ∀ s : TaskStore, TaskStore.wf s →
    (runBucket env pid s g).1.tasks.length = s.tasks.length + g.length ∧
    (runBucket env pid s g).1.nextId = s.nextId + g.length ∧
    TaskStore.wf (runBucket env pid s g).1 ∧
    (∀ k, k < s.nextId →
      TaskStore.getTask (runBucket env pid s g).1.tasks k =
        TaskStore.getTask s.tasks k) ∧
    ((runBucket env pid s g).2 = none ↔
      ∀ a ∈ g, actionFails env a = false) := by
  induction g with
  | nil =>
    intro s hwf
    exact ⟨rfl, rfl, hwf, fun k _ => rfl, by simp [runBucket]⟩
  | cons a rest ih =>
    intro s hwf
    obtain ⟨e1, e2, e3, e4, e5⟩ := executeAction_effects env s a pid hwf
    obtain ⟨i1, i2, i3, i4, i5⟩ := ih (executeAction env s a pid).1 e3
    simp only [runBucket]
    refine ⟨?_, ?_, i3, ?_, ?_⟩
    · rw [i1, e1]
      simp only [List.length_cons]
      omega
    · rw [i2, e2]
      simp only [List.length_cons]
      omega
    · intro k hk
      rw [i4 k (by rw [e2]; omega), e4 k (by omega)]
    · cases h1 : (executeAction env s a pid).2 with
      | some m =>
        have hfa : actionFails env a = true := by
          by_contra hc
          rw [e5, if_neg (by simpa using hc)] at h1
          exact Option.noConfusion h1
        constructor
        · intro hc
          exact Option.noConfusion hc
        · intro hall
          exact absurd (hall a (by simp)) (by simp [hfa])
      | none =>
        have hfa : actionFails env a = false := by
          by_contra hc
          rw [e5, if_pos (by simpa using hc)] at h1
          exact Option.noConfusion h1
        rw [show (match (none : Option String) with
            | some m => some m
            | none => (runBucket env pid (executeAction env s a pid).1
                rest).2) =
            (runBucket env pid (executeAction env s a pid).1 rest).2
          from rfl, i5]
        constructor
        · intro hrest x hx
          rcases List.mem_cons.mp hx with h | h
          · rw [h]
            exact hfa
          · exact hrest x h
        · intro hall x hx
          exact hall x (by simp [hx])

theorem runBuckets_effects (env : PlanAction → MCPResponse) (pid : Nat)
    (gs : List (List PlanAction)) :
    ∀ s : TaskStore, TaskStore.wf s →
    (runBuckets env pid s gs).1.tasks.length =
      s.tasks.length + ((bucketsEntered env gs).map List.length).sum ∧
    (runBuckets env pid s gs).1.nextId =
      s.nextId + ((bucketsEntered env gs).map List.length).sum ∧
    TaskStore.wf (runBuckets env pid s gs).1 ∧
    (∀ k, k < s.nextId →
      TaskStore.getTask (runBuckets env pid s gs).1.tasks k =
        TaskStore.getTask s.tasks k) ∧
    ((runBuckets env pid s gs).2 = none ↔
      ∀ g ∈ gs, ∀ a ∈ g, actionFails env a = false) := by
  induction gs with
  | nil =>
    intro s hwf
    exact ⟨rfl, rfl, hwf, fun k _ => rfl, by simp [runBuckets, bucketsEntered]⟩
  | cons g rest ih =>
    intro s hwf
    obtain ⟨b1, b2, b3, b4, b5⟩ := runBucket_effects env pid g s hwf
    simp only [runBuckets]
    cases h1 : (runBucket env pid s g).2 with
    | some m =>
      have hany : g.any (actionFails env) = true := by
        by_contra hc
        have hall : ∀ a ∈ g, actionFails env a = false := by
          intro a ha
          by_contra hfa
          exact hc (List.any_eq_true.mpr ⟨a, ha, by simpa using hfa⟩)
        rw [b5.mpr hall] at h1
        exact Option.noConfusion h1
      have hent : bucketsEntered env (g :: rest) = [g] := by
        simp [bucketsEntered, hany]
      rw [hent]
      refine ⟨by simpa using b1, by simpa using b2, b3, b4, ?_⟩
      constructor
      · intro hc
        exact Option.noConfusion hc
      · intro hall
        obtain ⟨x, hx, hfx⟩ := List.any_eq_true.mp hany
        exact absurd (hall g (by simp) x hx) (by simp [hfx])
    | none =>
      have hall : ∀ a ∈ g, actionFails env a = false := b5.mp h1
      have hany : g.any (actionFails env) = false := by
        rw [List.any_eq_false]
        intro x hx
        simp [hall x hx]
      have hent : bucketsEntered env (g :: rest) =
          g :: bucketsEntered env rest := by
        simp [bucketsEntered, hany]
      obtain ⟨i1, i2, i3, i4, i5⟩ := ih (runBucket env pid s g).1 b3
      rw [hent]
      refine ⟨?_, ?_, i3, ?_, ?_⟩
      · rw [i1, b1]
        simp only [List.map_cons, List.sum_cons]
        omega
      · rw [i2, b2]
        simp only [List.map_cons, List.sum_cons]
        omega
      · intro k hk
        rw [i4 k (by omega), b4 k hk]
      · rw [i5]
        constructor
        · intro hrest x hx
          rcases List.mem_cons.mp hx with h | h
          · rw [h]
            exact hall
          · exact hrest x h
        · intro hall2 x hx
          exact hall2 x (by simp [hx])

theorem getTask_finish_self (s : TaskStore) (id : Nat) (t : Task)
    (res : Option Value) (h : TaskStore.getTask s.tasks id = some t) :
    TaskStore.getTask (TaskStore.finish s id res).2.1.tasks id =
      some { t with
             status := .completed
             completedAt := some s.clock
             result := res } := by
  simp only [TaskStore.finish, h]
  exact getTask_setTask_self _ _ _

theorem finish_length (s : TaskStore) (id : Nat) (t : Task)
    (res : Option Value) (h : TaskStore.getTask s.tasks id = some t) :
    (TaskStore.finish s id res).2.1.tasks.length = s.tasks.length := by
  simp only [TaskStore.finish, h]
  exact setTask_length_present _ _ _ (by rw [h]; rfl)

theorem getTask_error_self (s : TaskStore) (id : Nat) (t : Task)
    (msg : String) (h : TaskStore.getTask s.tasks id = some t) :
    TaskStore.getTask (TaskStore.error s id msg).2.1.tasks id =
      some { t with
             status := .failed
             completedAt := some s.clock
             errMsg := some msg } := by
  simp only [TaskStore.error, h]
  exact getTask_setTask_self _ _ _

theorem error_length (s : TaskStore) (id : Nat) (t : Task)
    (msg : String) (h : TaskStore.getTask s.tasks id = some t) :
    (TaskStore.error s id msg).2.1.tasks.length = s.tasks.length := by
  simp only [TaskStore.error, h]
  exact setTask_length_present _ _ _ (by rw [h]; rfl)

/-- C5: the dependency-ordered executor partitions the plan's actions
into buckets keyed by `order` (`?? 0` for an absent order) — each key's
bucket is exactly the actions carrying that key, in plan order — and the
bucket list is strictly ascending by key; the run succeeds exactly when
no bucket holds a failing action; the parent plan task ends `completed`
on success and `failed` on any bucket failure; and the tasks created are
the parent plus one child per action of the buckets actually entered —
every bucket up to and including the first failing one, so no bucket
after a failing one is entered. -/
theorem planExecute_correct (env : PlanAction → MCPResponse) (s : TaskStore)
    (plan : MultiActionPlan) (hwf : TaskStore.wf s) :
    List.Pairwise (fun p q => p.1 < q.1) (sortedGroups plan.actions) ∧
    (∀ k, lookupG (sortedGroups plan.actions) k =
      (if plan.actions.any (fun x => orderOf x = k)
       then some (plan.actions.filter (fun x => orderOf x = k))
       else none)) ∧
    ((planExecute env s plan).2 = none ↔
      ∀ g ∈ groupByOrder plan.actions, ∀ a ∈ g,
        actionFails env a = false) ∧
    (∃ pt, TaskStore.getTask (planExecute env s plan).1.tasks s.nextId =
        some pt ∧
      pt.kind = "plan" ∧
      ((planExecute env s plan).2 = none → pt.status = .completed) ∧
      ((planExecute env s plan).2 ≠ none → pt.status = .failed)) ∧
    (planExecute env s plan).1.tasks.length =
      s.tasks.length + 1 +
        ((bucketsEntered env (groupByOrder plan.actions)).map
          List.length).sum := by
  obtain ⟨c0, c1, c2, c3, c4, t1, hget1, hkind, hstat, hname⟩ :=
    createStarted_facts s (planSpec plan) hwf
  obtain ⟨r1, r2, r3, r4, r5⟩ :=
    runBuckets_effects env (createStarted s (planSpec plan)).2
      (groupByOrder plan.actions) (createStarted s (planSpec plan)).1 c3
  refine ⟨sortedGroups_ascending plan.actions,
    fun k => lookupG_sortedGroups plan.actions k, ?_⟩
  simp only [planExecute]
  rw [c0] at r1 r2 r4 r5 ⊢
  have hp1 : TaskStore.getTask
      (runBuckets env s.nextId (createStarted s (planSpec plan)).1
        (groupByOrder plan.actions)).1.tasks s.nextId = some t1 := by
    rw [r4 s.nextId (by omega)]
    exact hget1
  cases hrun : (runBuckets env s.nextId (createStarted s (planSpec plan)).1
      (groupByOrder plan.actions)).2 with
  | none =>
    refine ⟨⟨fun _ => r5.mp hrun, fun _ => rfl⟩, ?_, ?_⟩
    · refine ⟨_, getTask_finish_self _ _ _ _ hp1, ?_, ?_, ?_⟩
      · rw [show (planSpec plan).kind = "plan" from rfl] at hkind
        simpa using hkind
      · intro _
        rfl
      · intro h
        exact absurd rfl h
    · rw [finish_length _ _ _ _ hp1, r1, c2]
  | some m =>
    refine ⟨?_, ?_, ?_⟩
    · constructor
      · intro hc
        exact Option.noConfusion hc
      · intro hall
        rw [r5.mpr hall] at hrun
        exact Option.noConfusion hrun
    · refine ⟨_, getTask_error_self _ _ _ _ hp1, ?_, ?_, ?_⟩
      · rw [show (planSpec plan).kind = "plan" from rfl] at hkind
        simpa using hkind
      · intro hc
        exact absurd hc (by simp)
      · intro _
        rfl
    · rw [error_length _ _ _ _ hp1, r1, c2]

/-- Witness for C5 on the concrete two-bucket plan whose order-0 bucket
fails: the parent ends failed and only the first bucket's child was
created (two tasks in all — no order-1 task exists). -/
theorem planExecute_correct_w :
    ((planExecute plannerEnv {} twoBucketPlan).2 = none ↔
      ∀ g ∈ groupByOrder twoBucketPlan.actions, ∀ a ∈ g,
        actionFails plannerEnv a = false) ∧
    (∃ pt, TaskStore.getTask
        (planExecute plannerEnv {} twoBucketPlan).1.tasks 0 = some pt ∧
      pt.kind = "plan" ∧
      ((planExecute plannerEnv {} twoBucketPlan).2 = none →
        pt.status = .completed) ∧
      ((planExecute plannerEnv {} twoBucketPlan).2 ≠ none →
        pt.status = .failed)) ∧
    (planExecute plannerEnv {} twoBucketPlan).1.tasks.length =
      0 + 1 + ((bucketsEntered plannerEnv
        (groupByOrder twoBucketPlan.actions)).map List.length).sum :=
  ((planExecute_correct plannerEnv {} twoBucketPlan
    (by intro p hp; simp at hp)).2.2)

/-- Witness for the amended C3: the well-behaved handler before the
throwing one is invoked, the run stops at the throwing handler. -/
theorem emit_stops_at_first_throw_w :
    invokedCount [okHandler, throwingHandler] sampleEvent = 2 ∧
    runHandlers [okHandler, throwingHandler] sampleEvent = .error "boom" :=
  (emit_stops_at_first_throw [okHandler, throwingHandler] sampleEvent).2
    1 "boom" rfl
    (by
      intro j hj hlt hg
      have hj0 : j = 0 := by omega
      subst hj0
      simp only [List.get?] at hg
      cases hg
      rfl)

end Spark
